import Mathlib

/-!
UKDirectors: the record pipeline of `app.js`.

A shallow embedding of the data path of `src/app.js`: `extractRecords`,
`normaliseRecord`, `calculateTotalBenefits`, `toNumber`, `hydrate` and
`getFallbackData`, with the JavaScript values they handle.

Modelling conventions.

* A JavaScript number is a `JSNum`: `NaN`, the two infinities, or a finite value
  given by the rational it denotes.  What the program computes (`+`,
  `Number.parseFloat`) is rounded to the nearest double, ties to the even
  mantissa, with overflow to an infinity and gradual underflow (`roundDouble`).
  The sign of zero is not modelled: no operation of the program tells `-0` from
  `0`.  A JSON number literal too large for a double (`1e999`) is read by
  `JSON.parse` as `Infinity`, so the infinities are inputs the program can receive.
* An object is the list of its own enumerable properties in enumeration order
  (`Props`); keys of a real object are distinct, and a property read returns the
  value of the first entry with the key.
* `String.prototype.toLowerCase` is modelled on the ASCII letters.  The program
  compares lower-cased text with `name`, `employee name`, `role`, `employment`,
  `salary`, `cash`, `allowances`, `benefits` and `director` only.  The characters
  outside ASCII whose lower-case form has an ASCII letter are the Kelvin sign
  (`k`, a letter none of these words has) and the dotted capital I (`i` followed
  by a combining dot, a pair none of these words has), so their lower-casing
  never makes a match.
-/

namespace UKDirectors

/-! ## Values -/

/-- A JavaScript number. -/
inductive JSNum where
  | nan
  | posInf
  | negInf
  | fin (q : ℚ)
  deriving DecidableEq

/-- A JavaScript value as produced by `JSON.parse`, plus `undefined`. -/
inductive JSVal where
  | undefined
  | null
  | bool (b : Bool)
  | num (n : JSNum)
  | str (s : String)
  | arr (items : List JSVal)
  | obj (props : List (String × JSVal))

/-- The own enumerable properties of an object, in enumeration order. -/
abbrev Props := List (String × JSVal)

mutual
/-- Structural equality test on values. -/
def JSVal.beq : JSVal → JSVal → Bool
  | .undefined, .undefined => true
  | .null, .null => true
  | .bool a, .bool b => a == b
  | .num a, .num b => decide (a = b)
  | .str a, .str b => a == b
  | .arr a, .arr b => beqItems a b
  | .obj a, .obj b => beqProps a b
  | _, _ => false
/-- Structural equality test on lists of values. -/
def beqItems : List JSVal → List JSVal → Bool
  | [], [] => true
  | x :: xs, y :: ys => JSVal.beq x y && beqItems xs ys
  | _, _ => false
/-- Structural equality test on property lists. -/
def beqProps : List (String × JSVal) → List (String × JSVal) → Bool
  | [], [] => true
  | (k, x) :: xs, (l, y) :: ys => k == l && JSVal.beq x y && beqProps xs ys
  | _, _ => false
end

/-! ## Rounding to a double -/

/-- The number of halvings that bring `n` below 2, with at most `fuel` of them. -/
def log2Fuel : ℕ → ℕ → ℕ
  | 0, _ => 0
  | fuel + 1, n => if n < 2 then 0 else log2Fuel fuel (n / 2) + 1

/-- The integer part of the binary logarithm of `n` (0 for `n = 0`). -/
def floorLog2 (n : ℕ) : ℕ := log2Fuel n n

/-- The integer nearest to the fraction `n / d`; of two nearest ones, the even one. -/
def roundHalfEven (n d : ℕ) : ℕ :=
  let f := n / d
  let r := n % d
  if 2 * r < d then f
  else if d < 2 * r then f + 1
  else if f % 2 = 0 then f else f + 1

/-- The binary exponent of the positive fraction `n / d`: the integer `e` with
`2 ^ e ≤ n / d < 2 ^ (e + 1)`. -/
def binaryExponent (n d : ℕ) : ℤ :=
  if d * 2 ^ floorLog2 n ≤ n * 2 ^ floorLog2 d then (floorLog2 n : ℤ) - floorLog2 d
  else (floorLog2 n : ℤ) - floorLog2 d - 1

namespace JSNum

/-- The double nearest to the positive fraction `n / d`.  The spacing of the
doubles around it is `2 ^ k` with `k` the binary exponent less 52 (53 bits of
mantissa), and never below `2 ^ (-1074)` (subnormal range); the fraction is
rounded to a multiple of the spacing, and a result of `2 ^ 1024` or more is
`Infinity`. -/
def roundPositive (n d : ℕ) : JSNum :=
  let k : ℤ := max (binaryExponent n d - 52) (-1074)
  let v : ℚ :=
    if 0 ≤ k then ((roundHalfEven n (d * 2 ^ k.toNat) * 2 ^ k.toNat : ℕ) : ℚ)
    else (roundHalfEven (n * 2 ^ (-k).toNat) d : ℚ) / ((2 ^ (-k).toNat : ℕ) : ℚ)
  if ((2 ^ 1024 : ℕ) : ℚ) ≤ v then posInf else fin v

/-- The unary `-`. -/
def neg : JSNum → JSNum
  | nan => nan
  | posInf => negInf
  | negInf => posInf
  | fin q => fin (-q)

/-- The double nearest to the rational `q` (IEEE 754 binary64, round to nearest,
ties to even): the Number value of a mathematical value. -/
def roundDouble (q : ℚ) : JSNum :=
  if q = 0 then fin 0
  else if 0 < q then roundPositive q.num.natAbs q.den
  else (roundPositive q.num.natAbs q.den).neg

/-- `Number.isFinite`. -/
def isFinite : JSNum → Bool
  | fin _ => true
  | _ => false

/-- The `<` of two numbers. -/
def lt : JSNum → JSNum → Bool
  | nan, _ => false
  | _, nan => false
  | posInf, _ => false
  | _, negInf => false
  | negInf, _ => true
  | _, posInf => true
  | fin a, fin b => decide (a < b)

/-- The `>` of two numbers. -/
def gt (a b : JSNum) : Bool := lt b a

/-- The `<=` of two numbers. -/
def le : JSNum → JSNum → Bool
  | nan, _ => false
  | _, nan => false
  | negInf, _ => true
  | _, posInf => true
  | posInf, _ => false
  | _, negInf => false
  | fin a, fin b => decide (a ≤ b)

/-- The `>=` of two numbers. -/
def ge (a b : JSNum) : Bool := le b a

/-- The `+` of two numbers. -/
def add : JSNum → JSNum → JSNum
  | nan, _ => nan
  | _, nan => nan
  | posInf, negInf => nan
  | negInf, posInf => nan
  | posInf, _ => posInf
  | _, posInf => posInf
  | negInf, _ => negInf
  | _, negInf => negInf
  | fin a, fin b => roundDouble (a + b)

/-- The `-` of two numbers.  The difference of two finite numbers is kept
unrounded: the program only tests the sign of a difference (in the comparator
of `sort`), and rounding never changes the sign of the difference of two
doubles, which is zero or at least `2 ^ (-1074)` in size. -/
def sub : JSNum → JSNum → JSNum
  | nan, _ => nan
  | _, nan => nan
  | posInf, posInf => nan
  | negInf, negInf => nan
  | posInf, _ => posInf
  | _, negInf => posInf
  | negInf, _ => negInf
  | _, posInf => negInf
  | fin a, fin b => fin (a - b)

/-- The larger of two numbers as `Math.max` takes it: `NaN` is contagious. -/
def max2 : JSNum → JSNum → JSNum
  | nan, _ => nan
  | _, nan => nan
  | a, b => if lt a b then b else a

/-- `Math.max(...xs)`; the maximum of no argument is `-Infinity`. -/
def mathMax (xs : List JSNum) : JSNum := xs.foldl max2 negInf

/-- The expression `x || 0` for a number `x`: zero and `NaN` are falsy. -/
def orZero : JSNum → JSNum
  | nan => fin 0
  | fin q => if q = 0 then fin 0 else fin q
  | x => x

end JSNum

/-- Truthiness of a value (`ToBoolean`). -/
def truthy : JSVal → Bool
  | .undefined => false
  | .null => false
  | .bool b => b
  | .num .nan => false
  | .num (.fin q) => decide (q ≠ 0)
  | .num _ => true
  | .str s => !s.data.isEmpty
  | .arr _ => true
  | .obj _ => true

/-- The expression `a || b`. -/
def jsOr (a b : JSVal) : JSVal := if truthy a then a else b

/-- The chain `a || b₁ || … || bₙ`, which associates to the left. -/
def orChain (a : JSVal) (bs : List JSVal) : JSVal := bs.foldl jsOr a

/-- Whether a value is `null` or `undefined`. -/
def nullish : JSVal → Bool
  | .undefined => true
  | .null => true
  | _ => false

/-- The expression `a ?? b`. -/
def jsCoalesce (a b : JSVal) : JSVal := if nullish a then b else a

/-- The read `o[k]` of an own property: `undefined` when the key is absent. -/
def get (o : Props) (k : String) : JSVal :=
  match o.find? (fun p => p.1 == k) with
  | some p => p.2
  | none => .undefined

/-- Whether `k` is an own key of the object. -/
def hasKey (o : Props) (k : String) : Bool := o.any (fun p => p.1 == k)

/-- The write `o[k] = v`: an existing key keeps its place, a new key goes last. -/
def set : Props → String → JSVal → Props
  | [], k, v => [(k, v)]
  | (k0, v0) :: o, k, v => if k0 == k then (k, v) :: o else (k0, v0) :: set o k v

/-- `Object.fromEntries`: a later entry with the same key overrides an earlier one. -/
def fromEntries (es : List (String × JSVal)) : Props :=
  es.foldl (fun o e => set o e.1 e.2) []

/-- `Object.values`. -/
def values (o : Props) : List JSVal := o.map (fun p => p.2)

/-- The read `v.k` (or `v?.k`) for the keys the program reads on a payload
(`items`, `data`, `_embedded`, `benefits`): only an object can have them. -/
def getProp : JSVal → String → JSVal
  | .obj o, k => get o k
  | _, _ => .undefined

/-- `Array.isArray`. -/
def isArray : JSVal → Bool
  | .arr _ => true
  | _ => false

/-- The elements of an array value (none for another value). -/
def elements : JSVal → List JSVal
  | .arr xs => xs
  | _ => []

/-- `String.prototype.toLowerCase`, on the ASCII letters. -/
def toLowerCase (s : String) : String := String.mk (s.data.map Char.toLower)

/-- Whether the character list `pat` starts the character list `cs`. -/
def startsWithChars : List Char → List Char → Bool
  | _, [] => true
  | [], _ :: _ => false
  | c :: cs, p :: ps => c == p && startsWithChars cs ps

/-- Whether `pat` occurs in `cs` at some position. -/
def includesChars : List Char → List Char → Bool
  | [], pat => startsWithChars [] pat
  | c :: cs, pat => startsWithChars (c :: cs) pat || includesChars cs pat

/-- `String.prototype.includes`. -/
def includes (s pat : String) : Bool := includesChars s.data pat.data

/-! ## `toNumber` -/

/-- The characters the pattern `[^0-9.-]+` leaves in place. -/
def isKept (c : Char) : Bool := c.isDigit || c == '.' || c == '-'

/-- `value.replace(/[^0-9.-]+/g, "")`. -/
def stripNonNumeric (s : String) : List Char := s.data.filter isKept

/-- The number a run of decimal digits denotes. -/
def digitsValue (ds : List Char) : ℕ := ds.foldl (fun acc c => 10 * acc + (c.toNat - 48)) 0

/-- `Number.parseFloat` on text over the alphabet of `stripNonNumeric` (digits,
`.` and `-`): an optional `-`, then digits, an optional `.` and more digits;
where no digit is found the result is `NaN`, otherwise it is the double nearest
to the decimal read.  An exponent, a `+`, leading white space and `Infinity`
cannot occur in such text. -/
def parseFloat (cs : List Char) : JSNum :=
  let neg := cs.head? == some '-'
  let body := if neg then cs.tail else cs
  let intDigits := body.takeWhile Char.isDigit
  let fracDigits :=
    match body.dropWhile Char.isDigit with
    | '.' :: rest => rest.takeWhile Char.isDigit
    | _ => []
  if intDigits.isEmpty && fracDigits.isEmpty then .nan
  else
    let v : ℚ := (digitsValue intDigits : ℚ) + (digitsValue fracDigits : ℚ) / 10 ^ fracDigits.length
    JSNum.roundDouble (if neg then -v else v)

/-- The function `toNumber` of `app.js`. -/
def toNumber : JSVal → JSNum
  | .num n => n
  | .str s => parseFloat (stripNonNumeric s)
  | _ => .nan

/-! ## `calculateTotalBenefits` -/

/-- The list `candidateFields` of `calculateTotalBenefits`. -/
def candidateFields : List String :=
  ["totalBenefits", "totalBenefit", "total", "benefitTotal", "benefits", "cashEquivalent",
   "cashEquivalentBenefits", "cashbenefit", "cash_value", "cashValue", "otherBenefits"]

/-- The explicit total:
`toNumber(candidateFields.reduce((acc, key) => acc ?? record[key], undefined))`. -/
def explicitTotal (record : Props) : JSNum :=
  toNumber (candidateFields.foldl (fun acc key => jsCoalesce acc (get record key)) .undefined)

/-- The array `numericValues`: the finite coercions of the record's values. -/
def numericValues (record : Props) : List JSNum :=
  ((values record).map toNumber).filter JSNum.isFinite

/-- The function `calculateTotalBenefits` of `app.js`. -/
def calculateTotalBenefits (record : Props) (salary allowances : JSNum) : JSNum :=
  let total := explicitTotal record
  if total.isFinite && total.gt (.fin 0) then total
  else
    let nums := numericValues record
    let total :=
      if !nums.isEmpty then JSNum.mathMax (salary.orZero :: allowances.orZero :: nums)
      else total
    if !total.isFinite || total.le (.fin 0) then JSNum.add salary.orZero allowances.orZero
    else total

/-! ## `normaliseRecord` -/

/-- The own enumerable properties of a value for which `raw && typeof raw === "object"`
holds: those of an object, the indexed elements of an array; no other value passes. -/
def ownProps : JSVal → Option Props
  | .obj o => some o
  | .arr xs => some (xs.enum.map (fun p => (toString p.1, p.2)))
  | _ => none

/-- The object `lowerCasedKeys`. -/
def lowerCasedKeys (raw : Props) : Props :=
  fromEntries (raw.map (fun p => (toLowerCase p.1, p.2)))

/-- The constant `name` of `normaliseRecord`. -/
def resolveName (raw : Props) : JSVal :=
  orChain (get raw "name")
    [get raw "fullName", get raw "directorName", get raw "employeeName",
     get (lowerCasedKeys raw) "name", get (lowerCasedKeys raw) "employee name", .null]

/-- The constant `roleRaw` of `normaliseRecord`. -/
def resolveRole (raw : Props) : JSVal :=
  orChain (get raw "role")
    [get raw "position", get raw "jobTitle", get raw "employmentTitle", get raw "occupation",
     get (lowerCasedKeys raw) "role", get (lowerCasedKeys raw) "employment", .str ""]

/-- The test `typeof roleRaw === "string" && roleRaw.toLowerCase().includes("director")`. -/
def roleIsDirector : JSVal → Bool
  | .str s => includes (toLowerCase s) "director"
  | _ => false

/-- The constant `salary` of `normaliseRecord`. -/
def resolveSalary (raw : Props) : JSNum :=
  toNumber (orChain (get raw "salary")
    [get raw "employmentIncome", get raw "cash", get raw "pay",
     get (lowerCasedKeys raw) "salary", get (lowerCasedKeys raw) "cash"])

/-- The constant `allowances` of `normaliseRecord`. -/
def resolveAllowances (raw : Props) : JSNum :=
  toNumber (orChain (get raw "allowances")
    [get raw "benefitsinKind", get raw "expenses",
     get (lowerCasedKeys raw) "allowances", get (lowerCasedKeys raw) "benefits"])

/-- The body of `normaliseRecord` once `raw` has passed the object test. -/
def normaliseProps (raw : Props) : Props :=
  let name := resolveName raw
  let roleRaw := resolveRole raw
  let isDirector := roleIsDirector roleRaw
  let salary := resolveSalary raw
  let allowances := resolveAllowances raw
  let totalBenefits := calculateTotalBenefits raw salary allowances
  if !isDirector then
    set (set (set (set raw "isDirector" (.bool isDirector)) "totalBenefits" (.num totalBenefits))
      "salary" (.num salary)) "allowances" (.num allowances)
  else
    set (set (set (set (set (set (set raw
      "displayName" (orChain name [roleRaw, .str "Director"]))
      "taxNumber" (orChain (get raw "taxNumber")
        [get raw "taxReference", get raw "nino", get raw "niNumber", get raw "taxId", .str "–"]))
      "employeeNumber" (orChain (get raw "employeeNumber")
        [get raw "payrollNumber", get raw "reference", get raw "employeeId", .str "–"]))
      "salary" (.num salary))
      "allowances" (.num allowances))
      "totalBenefits" (.num totalBenefits))
      "isDirector" (.bool isDirector)

/-- The function `normaliseRecord` of `app.js`; `none` is its `null`. -/
def normaliseRecord (raw : JSVal) : Option Props :=
  match ownProps raw with
  | none => none
  | some o => some (normaliseProps o)

/-! ## `extractRecords` -/

/-- The function `extractRecords` of `app.js`; the result is the array returned. -/
def extractRecords (payload : JSVal) : List JSVal :=
  if isArray payload then elements payload
  else if truthy (getProp payload "items") && isArray (getProp payload "items") then
    elements (getProp payload "items")
  else if truthy (getProp payload "data") && isArray (getProp payload "data") then
    elements (getProp payload "data")
  else if truthy (getProp (getProp payload "_embedded") "benefits")
      && isArray (getProp (getProp payload "_embedded") "benefits") then
    elements (getProp (getProp payload "_embedded") "benefits")
  else []

/-! ## `hydrate` -/

/-- The number read from a field in an arithmetic expression.  The fields read
this way hold a number (`normaliseProps` stores one, see `get_totalBenefits`);
no other operand reaches this point. -/
def numberOf : JSVal → JSNum
  | .num n => n
  | _ => .nan

/-- The field `totalBenefits` of a record, as a number. -/
def totalBenefitsOf (r : Props) : JSNum := numberOf (get r "totalBenefits")

/-- The comparator `(a, b) => b.totalBenefits - a.totalBenefits`. -/
def byTotalDesc (a b : Props) : JSNum := JSNum.sub (totalBenefitsOf b) (totalBenefitsOf a)

/-- Insertion of `x` in front of the first element it does not have to follow:
`x` moves past `y` only when `cmp x y > 0`. -/
def sortInsert {α : Type} (cmp : α → α → JSNum) (x : α) : List α → List α
  | [] => [x]
  | y :: ys => if (cmp x y).gt (.fin 0) then y :: sortInsert cmp x ys else x :: y :: ys

/-- `Array.prototype.sort(cmp)`: a stable sort; a result of `cmp` that is zero or
`NaN` leaves two elements in their order. -/
def sortBy {α : Type} (cmp : α → α → JSNum) : List α → List α
  | [] => []
  | x :: xs => sortInsert cmp x (sortBy cmp xs)

/-- The filter `(record) => record && record.isDirector`. -/
def keepDirector (r : Option Props) : Option Props :=
  match r with
  | some rec => if truthy (get rec "isDirector") then some rec else none
  | none => none

/-- The value `hydrate` assigns to `allDirectors`. -/
def hydrate (dataset : List JSVal) : List Props :=
  sortBy byTotalDesc ((dataset.map normaliseRecord).filterMap keepDirector)

/-! ## `getFallbackData` -/

/-- The fixed dataset returned by `getFallbackData`. -/
def getFallbackData : List JSVal :=
  [ .obj [("displayName", .str "Amelia Clarke"), ("role", .str "Executive Director"),
          ("salary", .num (.fin 325000)), ("allowances", .num (.fin 58000)),
          ("totalBenefits", .num (.fin 412000)), ("taxNumber", .str "TN-102938"),
          ("employeeNumber", .str "EMP-8821"), ("taxReference", .str "TN-102938"),
          ("employeeId", .str "EMP-8821")],
    .obj [("displayName", .str "Oliver Patel"), ("role", .str "Finance Director"),
          ("salary", .num (.fin 298000)), ("allowances", .num (.fin 75000)),
          ("totalBenefits", .num (.fin 395000)), ("taxNumber", .str "TN-435261"),
          ("employeeNumber", .str "EMP-7712")],
    .obj [("displayName", .str "Sophia Ahmed"), ("role", .str "Operations Director"),
          ("salary", .num (.fin 287000)), ("allowances", .num (.fin 64000)),
          ("totalBenefits", .num (.fin 365000)), ("taxNumber", .str "TN-994311"),
          ("employeeNumber", .str "EMP-6631")],
    .obj [("displayName", .str "Ethan Walker"), ("role", .str "Managing Director"),
          ("salary", .num (.fin 342000)), ("allowances", .num (.fin 52000)),
          ("totalBenefits", .num (.fin 362000)), ("taxNumber", .str "TN-884562"),
          ("employeeNumber", .str "EMP-5520")],
    .obj [("displayName", .str "Charlotte Green"), ("role", .str "Commercial Director"),
          ("salary", .num (.fin 271000)), ("allowances", .num (.fin 71000)),
          ("totalBenefits", .num (.fin 349000)), ("taxNumber", .str "TN-773215"),
          ("employeeNumber", .str "EMP-4419")] ]

/-! ## Specification-side definitions -/

/-- The text `pat` occurs somewhere in the text `s`. -/
def ContainsText (s pat : String) : Prop :=
  ∃ before after : List Char, s.data = before ++ pat.data ++ after

/-- The property delete: the object without the key `k`. -/
def without (o : Props) (k : String) : Props := o.filter (fun p => p.1 != k)

/-- The explicit total as C10 words it: the coercion of the value stored under
the first candidate name that is a key of the record, whatever the value is. -/
def explicitTotalFirstKeyPresent (record : Props) : JSNum :=
  toNumber (match candidateFields.find? (fun key => hasKey record key) with
    | some key => get record key
    | none => .undefined)

/-- The explicit total as amended: the coercion of the value stored under the
first candidate name whose value is neither `null` nor `undefined`. -/
def explicitTotalFirstNonNullish (record : Props) : JSNum :=
  toNumber (match candidateFields.find? (fun key => !nullish (get record key)) with
    | some key => get record key
    | none => .undefined)

/-- The result C7 describes: the payload when it is an array, otherwise the
first of `payload.items`, `payload.data`, `payload._embedded.benefits` that is
an array, and the empty array when none is. -/
def firstArrayFound (payload : JSVal) : List JSVal :=
  match payload with
  | .arr xs => xs
  | _ =>
    match getProp payload "items" with
    | .arr xs => xs
    | _ =>
      match getProp payload "data" with
      | .arr xs => xs
      | _ =>
        match getProp (getProp payload "_embedded") "benefits" with
        | .arr xs => xs
        | _ => []

/-- No name of `keys` is an own key of the record. -/
def lacksKeys (raw : Props) (keys : List String) : Bool :=
  keys.all (fun k => !hasKey raw k)

/-- No own key of the record lower-cases to a name of `keys`. -/
def lacksLoweredKeys (raw : Props) (keys : List String) : Bool :=
  raw.all (fun p => !keys.contains (toLowerCase p.1))

/-- The own properties of a value that is an object, and none for another value. -/
def propsOf (v : JSVal) : Props := (ownProps v).getD []

/-- The dataset C6 describes, before it is ordered: the records `normaliseRecord`
returns for the input values (a `null` result is no record) whose `isDirector`
is `true`. -/
def directorsOf (dataset : List JSVal) : List Props :=
  (dataset.filterMap normaliseRecord).filter (fun r => JSVal.beq (get r "isDirector") (.bool true))

/-! ## Equality of values is decidable -/

mutual
theorem JSVal.beq_eq : ∀ a b : JSVal, JSVal.beq a b = true → a = b := by
  intro a b h
  cases a <;> cases b <;> simp [JSVal.beq] at h ⊢
  · exact h
  · exact h
  · exact h
  · exact beqItems_eq _ _ h
  · exact beqProps_eq _ _ h
theorem beqItems_eq : ∀ a b : List JSVal, beqItems a b = true → a = b := by
  intro a b h
  cases a <;> cases b <;> simp [beqItems] at h ⊢
  exact ⟨JSVal.beq_eq _ _ h.1, beqItems_eq _ _ h.2⟩
theorem beqProps_eq : ∀ a b : List (String × JSVal), beqProps a b = true → a = b := by
  intro a b h
  cases a with
  | nil => cases b <;> simp [beqProps] at h ⊢
  | cons p a =>
    cases b with
    | nil => simp [beqProps] at h
    | cons q b =>
      obtain ⟨k, x⟩ := p
      obtain ⟨l, y⟩ := q
      simp [beqProps] at h ⊢
      exact ⟨⟨h.1.1, JSVal.beq_eq _ _ h.1.2⟩, beqProps_eq _ _ h.2⟩
end

mutual
theorem JSVal.beq_self : ∀ a : JSVal, JSVal.beq a a = true := by
  intro a
  cases a <;> simp [JSVal.beq]
  · exact beqItems_self _
  · exact beqProps_self _
theorem beqItems_self : ∀ a : List JSVal, beqItems a a = true := by
  intro a
  cases a <;> simp [beqItems]
  exact ⟨JSVal.beq_self _, beqItems_self _⟩
theorem beqProps_self : ∀ a : List (String × JSVal), beqProps a a = true := by
  intro a
  cases a with
  | nil => simp [beqProps]
  | cons p a =>
    obtain ⟨k, x⟩ := p
    simp [beqProps]
    exact ⟨JSVal.beq_self _, beqProps_self _⟩
end

instance : DecidableEq JSVal := fun a b =>
  if h : JSVal.beq a b = true then isTrue (JSVal.beq_eq a b h)
  else isFalse (fun e => h (e ▸ JSVal.beq_self a))

/-! ## Rounding -/

theorem log2Fuel_eq (fuel n : ℕ) (h : n ≤ fuel) : log2Fuel fuel n = Nat.log2 n := by
  induction fuel generalizing n with
  | zero =>
    have : n = 0 := Nat.le_zero.mp h
    subst this
    rw [Nat.log2]
    simp [log2Fuel]
  | succ fuel ih =>
    rw [Nat.log2]
    unfold log2Fuel
    by_cases h2 : n < 2
    · simp [h2, Nat.not_le.mpr h2]
    · have h3 : 2 ≤ n := Nat.not_lt.mp h2
      have h4 : n / 2 ≤ fuel := by omega
      simp [h2, h3, ih (n / 2) h4]

theorem floorLog2_eq (n : ℕ) : floorLog2 n = Nat.log2 n := log2Fuel_eq n n (le_refl n)

theorem roundHalfEven_one (n : ℕ) : roundHalfEven n 1 = n := by
  simp [roundHalfEven, Nat.mod_one]

theorem roundDouble_zero : JSNum.roundDouble 0 = JSNum.fin 0 := by
  simp [JSNum.roundDouble]

set_option exponentiation.threshold 1100 in
theorem roundDouble_natCast (n : ℕ) (h : n ≤ 2 ^ 53) : JSNum.roundDouble (n : ℚ) = JSNum.fin n := by
  by_cases h0 : n = 0
  · subst h0
    simp [JSNum.roundDouble]
  have hpos : (0 : ℚ) < n := by exact_mod_cast Nat.pos_of_ne_zero h0
  have hne : (n : ℚ) ≠ 0 := ne_of_gt hpos
  have hlo : 2 ^ Nat.log2 n ≤ n := Nat.log2_self_le h0
  have ha : Nat.log2 n ≤ 53 := by
    by_contra hc
    have h54 : 54 ≤ Nat.log2 n := by omega
    have : 2 ^ 54 ≤ 2 ^ Nat.log2 n := Nat.pow_le_pow_right (by norm_num) h54
    have : 2 ^ 54 ≤ 2 ^ 53 := le_trans this (le_trans hlo h)
    norm_num at this
  have hfl1 : floorLog2 1 = 0 := by decide
  have hexp : binaryExponent n 1 = (Nat.log2 n : ℤ) := by
    simp [binaryExponent, hfl1, floorLog2_eq, hlo]
  simp only [JSNum.roundDouble, hne, hpos, if_true, if_false, Rat.num_natCast, Int.natAbs_ofNat,
    Rat.den_natCast, JSNum.roundPositive, hexp]
  by_cases h53 : Nat.log2 n = 53
  · have hn : n = 2 ^ 53 := by
      rw [h53] at hlo
      exact le_antisymm h hlo
    subst hn
    rw [h53]
    decide!
  · have ha2 : Nat.log2 n ≤ 52 := by omega
    obtain ⟨j, hj⟩ : ∃ j : ℕ, Nat.log2 n + j = 52 := ⟨52 - Nat.log2 n, by omega⟩
    have hk : max ((Nat.log2 n : ℤ) - 52) (-1074) = -(j : ℤ) := by
      rw [max_eq_left (by omega)]
      omega
    rw [hk]
    by_cases hj0 : j = 0
    · subst hj0
      simp [roundHalfEven_one]
      omega
    · have hneg : ¬ (0 : ℤ) ≤ -(j : ℤ) := by omega
      have h2j : ((2 ^ j : ℕ) : ℚ) ≠ 0 := by positivity
      simp only [hneg, if_false, neg_neg, Int.toNat_ofNat, roundHalfEven_one]
      have hv : ((n * 2 ^ j : ℕ) : ℚ) / ((2 ^ j : ℕ) : ℚ) = n := by
        rw [Nat.cast_mul]
        field_simp
      rw [hv]
      simp
      omega

/-! ## Properties and property lists -/

theorem get_nil (k : String) : get [] k = .undefined := rfl

theorem get_cons (k0 : String) (v0 : JSVal) (o : Props) (k : String) :
    get ((k0, v0) :: o) k = if k0 = k then v0 else get o k := by
  by_cases h : k0 = k
  · simp [get, List.find?, h]
  · have hb : (k0 == k) = false := by simpa using h
    simp [get, List.find?, h, hb]

theorem set_cons (k0 : String) (v0 : JSVal) (o : Props) (k : String) (v : JSVal) :
    set ((k0, v0) :: o) k v = if k0 = k then (k, v) :: o else (k0, v0) :: set o k v := by
  by_cases h : k0 = k <;> simp [set, h]

theorem get_set_same (o : Props) (k : String) (v : JSVal) : get (set o k v) k = v := by
  induction o with
  | nil => simp [set, get_cons]
  | cons p o ih =>
    obtain ⟨k0, v0⟩ := p
    by_cases h : k0 = k <;> simp [set_cons, get_cons, h, ih]

theorem get_set_other (o : Props) (k k2 : String) (v : JSVal) (h : k ≠ k2) :
    get (set o k v) k2 = get o k2 := by
  induction o with
  | nil => simp [set, get_cons, h]
  | cons p o ih =>
    obtain ⟨k0, v0⟩ := p
    by_cases h0 : k0 = k
    · subst h0
      simp [set_cons, get_cons, h]
    · by_cases h1 : k0 = k2
      · subst h1
        simp [set_cons, get_cons, h0]
      · simp [set_cons, get_cons, h0, h1, ih]

theorem get_of_not_hasKey (o : Props) (k : String) (h : hasKey o k = false) :
    get o k = .undefined := by
  induction o with
  | nil => rfl
  | cons p o ih =>
    obtain ⟨k0, v0⟩ := p
    simp only [hasKey, List.any_cons, Bool.or_eq_false_iff] at h
    have h1 : k0 ≠ k := by simpa using h.1
    simp [get_cons, h1, ih h.2]


theorem get_totalBenefits (raw : Props) :
    get (normaliseProps raw) "totalBenefits"
      = .num (calculateTotalBenefits raw (resolveSalary raw) (resolveAllowances raw)) := by
  unfold normaliseProps
  by_cases h : roleIsDirector (resolveRole raw) = true
  · simp [h, get_set_same, get_set_other]
  · simp [h, get_set_same, get_set_other]

theorem get_isDirector (raw : Props) :
    get (normaliseProps raw) "isDirector" = .bool (roleIsDirector (resolveRole raw)) := by
  unfold normaliseProps
  by_cases h : roleIsDirector (resolveRole raw) = true
  · simp [h, get_set_same, get_set_other]
  · simp [h, get_set_same, get_set_other]

theorem orChain_of_truthy (a : JSVal) (bs : List JSVal) (h : truthy a = true) :
    orChain a bs = a := by
  unfold orChain
  induction bs with
  | nil => rfl
  | cons b bs ih => simp [List.foldl, jsOr, h, ih]

theorem calculateTotalBenefits_cases (record : Props) (s a : JSNum) :
    (∃ q : ℚ, 0 < q ∧ calculateTotalBenefits record s a = .fin q)
      ∨ calculateTotalBenefits record s a = JSNum.add s.orZero a.orZero := by
  unfold calculateTotalBenefits
  simp only
  by_cases h1 : ((explicitTotal record).isFinite && (explicitTotal record).gt (.fin 0)) = true
  · rw [if_pos h1]
    left
    cases hq : explicitTotal record <;> simp [hq, JSNum.isFinite, JSNum.gt, JSNum.lt] at h1 ⊢
    exact h1
  · rw [if_neg h1]
    generalize (if (!(numericValues record).isEmpty) = true then
      JSNum.mathMax (s.orZero :: a.orZero :: numericValues record) else explicitTotal record) = t
    by_cases h2 : (!t.isFinite || t.le (.fin 0)) = true
    · rw [if_pos h2]
      right; rfl
    · rw [if_neg h2]
      left
      cases t <;> simp [JSNum.isFinite, JSNum.le] at h2 ⊢
      exact h2

/-! ## The maximum scan -/

theorem foldl_max2_fin (xs : List JSNum) (a : ℚ) (hfin : ∀ x ∈ xs, ∃ q, x = .fin q) :
    ∃ m : ℚ, xs.foldl JSNum.max2 (.fin a) = .fin m ∧ (m = a ∨ .fin m ∈ xs) ∧ a ≤ m
      ∧ ∀ q, JSNum.fin q ∈ xs → q ≤ m := by
  induction xs generalizing a with
  | nil => exact ⟨a, rfl, Or.inl rfl, le_refl a, by simp⟩
  | cons x xs ih =>
    obtain ⟨b, rfl⟩ := hfin x (List.mem_cons_self x xs)
    have hxs : ∀ y ∈ xs, ∃ q, y = .fin q := fun y hy => hfin y (List.mem_cons_of_mem _ hy)
    rw [List.foldl_cons]
    by_cases hab : a < b
    · have e : JSNum.max2 (.fin a) (.fin b) = .fin b := by simp [JSNum.max2, JSNum.lt, hab]
      rw [e]
      obtain ⟨m, hm, hmem, hle, hub⟩ := ih b hxs
      refine ⟨m, hm, Or.inr ?_, le_trans (le_of_lt hab) hle, ?_⟩
      · rcases hmem with h | h
        · rw [h]; exact List.mem_cons_self _ _
        · exact List.mem_cons_of_mem _ h
      · intro q hq
        rcases List.mem_cons.mp hq with h | h
        · cases h; exact hle
        · exact hub q h
    · have e : JSNum.max2 (.fin a) (.fin b) = .fin a := by simp [JSNum.max2, JSNum.lt, hab]
      rw [e]
      obtain ⟨m, hm, hmem, hle, hub⟩ := ih a hxs
      refine ⟨m, hm, ?_, hle, ?_⟩
      · rcases hmem with h | h
        · exact Or.inl h
        · exact Or.inr (List.mem_cons_of_mem _ h)
      · intro q hq
        rcases List.mem_cons.mp hq with h | h
        · cases h; exact le_trans (not_lt.mp hab) hle
        · exact hub q h

theorem mathMax_fin (xs : List JSNum) (hne : xs ≠ []) (hfin : ∀ x ∈ xs, ∃ q, x = .fin q) :
    ∃ m : ℚ, JSNum.mathMax xs = .fin m ∧ .fin m ∈ xs ∧ ∀ q, JSNum.fin q ∈ xs → q ≤ m := by
  cases xs with
  | nil => exact absurd rfl hne
  | cons x xs =>
    obtain ⟨a, rfl⟩ := hfin x (List.mem_cons_self x xs)
    have hxs : ∀ y ∈ xs, ∃ q, y = .fin q := fun y hy => hfin y (List.mem_cons_of_mem _ hy)
    obtain ⟨m, hm, hmem, hle, hub⟩ := foldl_max2_fin xs a hxs
    have e : JSNum.max2 .negInf (.fin a) = .fin a := by simp [JSNum.max2, JSNum.lt]
    refine ⟨m, ?_, ?_, ?_⟩
    · unfold JSNum.mathMax
      rw [List.foldl_cons, e]
      exact hm
    · rcases hmem with h | h
      · rw [h]; exact List.mem_cons_self _ _
      · exact List.mem_cons_of_mem _ h
    · intro q hq
      rcases List.mem_cons.mp hq with h | h
      · cases h; exact hle
      · exact hub q h

theorem numericValues_fin (record : Props) : ∀ x ∈ numericValues record, ∃ q, x = .fin q := by
  intro x hx
  have h := (List.mem_filter.mp hx).2
  cases x <;> simp [JSNum.isFinite] at h ⊢

theorem get_mem_values (o : Props) (k : String) (v : JSVal) (h : get o k = v)
    (hv : v ≠ .undefined) : v ∈ values o := by
  induction o with
  | nil => exact absurd h.symm hv
  | cons p o ih =>
    obtain ⟨k0, v0⟩ := p
    rw [get_cons] at h
    by_cases hk : k0 = k
    · rw [if_pos hk] at h
      simp [values, h]
    · rw [if_neg hk] at h
      have := ih h
      simp only [values, List.map_cons, List.mem_cons] at this ⊢
      exact Or.inr this

theorem fin_mem_numericValues (record : Props) (k : String) (q : ℚ)
    (h : get record k = .num (.fin q)) : JSNum.fin q ∈ numericValues record := by
  unfold numericValues
  refine List.mem_filter.mpr ⟨List.mem_map.mpr ⟨_, get_mem_values record k _ h (by simp), rfl⟩, rfl⟩

theorem orChain_mem (a : JSVal) (bs : List JSVal) : orChain a bs = a ∨ orChain a bs ∈ bs := by
  unfold orChain
  induction bs generalizing a with
  | nil => exact Or.inl rfl
  | cons b bs ih =>
    rw [List.foldl_cons]
    rcases ih (jsOr a b) with h | h
    · rw [h]
      unfold jsOr
      split
      · exact Or.inl rfl
      · exact Or.inr (List.mem_cons_self _ _)
    · exact Or.inr (List.mem_cons_of_mem _ h)

theorem get_undefined_or_mem (o : Props) (k : String) :
    get o k = .undefined ∨ get o k ∈ values o := by
  by_cases h : get o k = .undefined
  · exact Or.inl h
  · exact Or.inr (get_mem_values o k _ rfl h)

theorem get_set_cases (o : Props) (k k2 : String) (v : JSVal) :
    get (set o k v) k2 = v ∨ get (set o k v) k2 = get o k2 := by
  by_cases h : k = k2
  · subst h
    exact Or.inl (get_set_same o k v)
  · exact Or.inr (get_set_other o k k2 v h)

theorem get_foldl_set_cases (es : List (String × JSVal)) (acc : Props) (k : String) :
    get (es.foldl (fun o e => set o e.1 e.2) acc) k = get acc k
      ∨ get (es.foldl (fun o e => set o e.1 e.2) acc) k ∈ es.map (fun e => e.2) := by
  induction es generalizing acc with
  | nil => exact Or.inl rfl
  | cons e es ih =>
    rw [List.foldl_cons]
    rcases ih (set acc e.1 e.2) with h | h
    · rcases get_set_cases acc e.1 k e.2 with h2 | h2
      · right
        rw [h, h2]
        exact List.mem_cons_self _ _
      · left
        rw [h, h2]
    · exact Or.inr (List.mem_cons_of_mem _ h)

theorem get_lowerCasedKeys_undefined_or_mem (raw : Props) (k : String) :
    get (lowerCasedKeys raw) k = .undefined ∨ get (lowerCasedKeys raw) k ∈ values raw := by
  unfold lowerCasedKeys fromEntries
  rcases get_foldl_set_cases (raw.map (fun p => (toLowerCase p.1, p.2))) [] k with h | h
  · exact Or.inl h
  · right
    simpa [values, List.map_map, Function.comp] using h

theorem fin_mem_of_toNumber (raw : Props) (v : JSVal) (q : ℚ)
    (hv : v = .undefined ∨ v ∈ values raw) (h : toNumber v = .fin q) :
    JSNum.fin q ∈ numericValues raw := by
  rcases hv with hv | hv
  · rw [hv] at h
    exact absurd h (by simp [toNumber])
  · unfold numericValues
    exact List.mem_filter.mpr ⟨List.mem_map.mpr ⟨v, hv, h⟩, rfl⟩

theorem orChain_undefined_or_mem (raw : Props) (a : JSVal) (bs : List JSVal)
    (ha : a = .undefined ∨ a ∈ values raw)
    (hbs : ∀ b ∈ bs, b = .undefined ∨ b ∈ values raw) :
    orChain a bs = .undefined ∨ orChain a bs ∈ values raw := by
  rcases orChain_mem a bs with h | h
  · rw [h]; exact ha
  · exact hbs _ h

theorem resolveSalary_mem (raw : Props) (q : ℚ) (h : resolveSalary raw = .fin q) :
    JSNum.fin q ∈ numericValues raw := by
  unfold resolveSalary at h
  refine fin_mem_of_toNumber raw _ q ?_ h
  apply orChain_undefined_or_mem raw _ _ (get_undefined_or_mem raw _)
  intro b hb
  simp only [List.mem_cons, List.mem_singleton, List.not_mem_nil, or_false] at hb
  rcases hb with rfl | rfl | rfl | rfl | rfl
  · exact get_undefined_or_mem raw _
  · exact get_undefined_or_mem raw _
  · exact get_undefined_or_mem raw _
  · exact get_lowerCasedKeys_undefined_or_mem raw _
  · exact get_lowerCasedKeys_undefined_or_mem raw _

theorem resolveAllowances_mem (raw : Props) (q : ℚ) (h : resolveAllowances raw = .fin q) :
    JSNum.fin q ∈ numericValues raw := by
  unfold resolveAllowances at h
  refine fin_mem_of_toNumber raw _ q ?_ h
  apply orChain_undefined_or_mem raw _ _ (get_undefined_or_mem raw _)
  intro b hb
  simp only [List.mem_cons, List.mem_singleton, List.not_mem_nil, or_false] at hb
  rcases hb with rfl | rfl | rfl | rfl
  · exact get_undefined_or_mem raw _
  · exact get_undefined_or_mem raw _
  · exact get_lowerCasedKeys_undefined_or_mem raw _
  · exact get_lowerCasedKeys_undefined_or_mem raw _

theorem calculateTotalBenefits_sum_branch (record : Props) (s a : JSNum) :
    (∃ q : ℚ, 0 < q ∧ calculateTotalBenefits record s a = .fin q)
      ∨ (calculateTotalBenefits record s a = JSNum.add s.orZero a.orZero
          ∧ (numericValues record = []
            ∨ (JSNum.mathMax (s.orZero :: a.orZero :: numericValues record)).isFinite = false
            ∨ (JSNum.mathMax (s.orZero :: a.orZero :: numericValues record)).le (.fin 0)
                = true)) := by
  rcases calculateTotalBenefits_cases record s a with h | h
  · exact Or.inl h
  · by_cases hpos : ∃ q : ℚ, 0 < q ∧ calculateTotalBenefits record s a = .fin q
    · exact Or.inl hpos
    · right
      refine ⟨h, ?_⟩
      by_cases hn : numericValues record = []
      · exact Or.inl hn
      · right
        by_contra hc
        simp only [not_or, Bool.not_eq_false, Bool.not_eq_true] at hc
        obtain ⟨hfin, hle⟩ := hc
        apply hpos
        have hemp : (numericValues record).isEmpty = false := by
          cases hnv : numericValues record with
          | nil => exact absurd hnv hn
          | cons x xs => rfl
        unfold calculateTotalBenefits
        simp only [hemp, Bool.not_false, if_true, hfin, hle, Bool.not_true, Bool.or_self,
          Bool.false_eq_true, if_false]
        by_cases h1 : ((explicitTotal record).isFinite && (explicitTotal record).gt (.fin 0)) = true
        · rw [if_pos h1]
          cases hq : explicitTotal record <;>
            simp [hq, JSNum.isFinite, JSNum.gt, JSNum.lt] at h1 ⊢
          exact h1
        · rw [if_neg h1]
          cases ht : JSNum.mathMax (s.orZero :: a.orZero :: numericValues record) <;>
            simp [ht, JSNum.isFinite, JSNum.le] at hfin hle ⊢
          exact hle

/-! ## The total-benefits figure -/

/-- C1 (as stated) fails: a record whose only field is a negative `salary` gets
that negative number as `totalBenefits`, and a record whose only field is an
infinite `salary` (the JSON literal `1e999`) gets `Infinity`. -/
theorem totalBenefits_negative_or_infinite :
    get (normaliseProps [("salary", .num (.fin (-5)))]) "totalBenefits" = .num (.fin (-5))
      ∧ JSNum.ge (.fin (-5)) (.fin 0) = false
      ∧ get (normaliseProps [("salary", .num .posInf)]) "totalBenefits" = .num .posInf
      ∧ JSNum.isFinite .posInf = false := by
  decide!

/-- C1 (amended): for every raw object record whose resolved `salary` and
`allowances` are each `NaN` (not available) or a finite number that is not
negative, the `totalBenefits` of the normalised record is a finite number that
is not negative. -/
theorem totalBenefits_finite_nonneg (raw : Props)
    (hs : resolveSalary raw = .nan ∨ ∃ q : ℚ, 0 ≤ q ∧ resolveSalary raw = .fin q)
    (ha : resolveAllowances raw = .nan ∨ ∃ q : ℚ, 0 ≤ q ∧ resolveAllowances raw = .fin q) :
    ∃ q : ℚ, 0 ≤ q ∧ get (normaliseProps raw) "totalBenefits" = .num (.fin q) := by
  rw [get_totalBenefits]
  rcases calculateTotalBenefits_sum_branch raw (resolveSalary raw) (resolveAllowances raw) with
    ⟨q, hq, h⟩ | ⟨h, hbranch⟩
  · exact ⟨q, le_of_lt hq, by rw [h]⟩
  · rw [h]
    have hs2 : ∃ p : ℚ, 0 ≤ p ∧ (resolveSalary raw).orZero = .fin p
        ∧ (p ≠ 0 → JSNum.fin p ∈ numericValues raw) := by
      rcases hs with hs | ⟨p, hp, hs⟩
      · exact ⟨0, le_refl 0, by rw [hs]; rfl, fun h0 => absurd rfl h0⟩
      · refine ⟨p, hp, ?_, fun _ => resolveSalary_mem raw p hs⟩
        rw [hs]
        by_cases h0 : p = 0 <;> simp [JSNum.orZero, h0]
    have ha2 : ∃ p : ℚ, 0 ≤ p ∧ (resolveAllowances raw).orZero = .fin p
        ∧ (p ≠ 0 → JSNum.fin p ∈ numericValues raw) := by
      rcases ha with ha | ⟨p, hp, ha⟩
      · exact ⟨0, le_refl 0, by rw [ha]; rfl, fun h0 => absurd rfl h0⟩
      · refine ⟨p, hp, ?_, fun _ => resolveAllowances_mem raw p ha⟩
        rw [ha]
        by_cases h0 : p = 0 <;> simp [JSNum.orZero, h0]
    obtain ⟨p, hp, hsp, hpm⟩ := hs2
    obtain ⟨q, hq, haq, hqm⟩ := ha2
    rw [hsp, haq] at hbranch ⊢
    have hzero : p = 0 ∧ q = 0 := by
      rcases hbranch with hnil | hmax
      · constructor
        · by_contra h0
          have := hpm h0
          rw [hnil] at this
          exact absurd this (List.not_mem_nil _)
        · by_contra h0
          have := hqm h0
          rw [hnil] at this
          exact absurd this (List.not_mem_nil _)
      · have hL : ∀ x ∈ JSNum.fin p :: JSNum.fin q :: numericValues raw, ∃ r, x = .fin r := by
          intro x hx
          rcases List.mem_cons.mp hx with e | hx
          · exact ⟨p, e⟩
          · rcases List.mem_cons.mp hx with e | hx
            · exact ⟨q, e⟩
            · exact numericValues_fin raw x hx
        obtain ⟨m, hm, -, hub⟩ := mathMax_fin _ (List.cons_ne_nil _ _) hL
        rw [hm] at hmax
        have hm0 : m ≤ 0 := by
          rcases hmax with hf | hle
          · exact absurd hf (by simp [JSNum.isFinite])
          · simpa [JSNum.le] using hle
        have hpm2 : p ≤ m := hub p (List.mem_cons_self _ _)
        have hqm2 : q ≤ m := hub q (List.mem_cons_of_mem _ (List.mem_cons_self _ _))
        exact ⟨le_antisymm (le_trans hpm2 hm0) hp, le_antisymm (le_trans hqm2 hm0) hq⟩
    obtain ⟨rfl, rfl⟩ := hzero
    exact ⟨0, le_refl 0, by simp [JSNum.add, roundDouble_zero]⟩

/-- Witness for C1 (amended): the record of the end-to-end example, whose
figures are given as text with thousands separators. -/
theorem totalBenefits_finite_nonneg_witness :
    ∃ q : ℚ, 0 ≤ q ∧
      get (normaliseProps [("fullName", .str "A"), ("role", .str "Director"),
        ("cash", .str "100,000"), ("expenses", .str "20,000")]) "totalBenefits"
        = .num (.fin q) :=
  totalBenefits_finite_nonneg _
    (Or.inr ⟨100000, by norm_num, by decide!⟩) (Or.inr ⟨20000, by norm_num, by decide!⟩)

/-- C3: for every raw object record whose own `totalBenefits` field is a finite
number greater than zero, `normaliseRecord` returns a record whose
`totalBenefits` is that number, whatever else the record holds. -/
theorem totalBenefits_explicit_preserved (raw : Props) (q : ℚ) (hq : 0 < q)
    (h : get raw "totalBenefits" = .num (.fin q)) :
    ∃ r, normaliseRecord (.obj raw) = some r ∧ get r "totalBenefits" = .num (.fin q) := by
  refine ⟨normaliseProps raw, rfl, ?_⟩
  rw [get_totalBenefits]
  have he : explicitTotal raw = .fin q := by
    simp [explicitTotal, candidateFields, List.foldl, jsCoalesce, nullish, h, toNumber]
  unfold calculateTotalBenefits
  simp [he, JSNum.isFinite, JSNum.gt, JSNum.lt, hq]

/-- Witness for C3: the first record of the fallback dataset. -/
theorem totalBenefits_explicit_preserved_witness :
    ∃ r, normaliseRecord (.obj [("displayName", .str "Amelia Clarke"),
        ("role", .str "Executive Director"), ("salary", .num (.fin 325000)),
        ("allowances", .num (.fin 58000)), ("totalBenefits", .num (.fin 412000))]) = some r
      ∧ get r "totalBenefits" = .num (.fin 412000) :=
  totalBenefits_explicit_preserved _ 412000 (by norm_num) (by decide!)

/-! ## The explicit total -/

theorem foldl_coalesce_of_not_nullish (f : String → JSVal) (acc : JSVal) (keys : List String)
    (h : nullish acc = false) :
    keys.foldl (fun acc key => jsCoalesce acc (f key)) acc = acc := by
  induction keys with
  | nil => rfl
  | cons k keys ih =>
    have e : jsCoalesce acc (f k) = acc := by simp [jsCoalesce, h]
    rw [List.foldl_cons, e]
    exact ih

theorem toNumber_of_nullish (v : JSVal) (h : nullish v = true) : toNumber v = .nan := by
  cases v <;> simp [nullish] at h <;> rfl

theorem foldl_coalesce_find (f : String → JSVal) (acc : JSVal) (keys : List String)
    (h : nullish acc = true) :
    toNumber (keys.foldl (fun acc key => jsCoalesce acc (f key)) acc)
      = toNumber (match keys.find? (fun key => !nullish (f key)) with
          | some key => f key
          | none => .undefined) := by
  induction keys generalizing acc with
  | nil => simpa [toNumber] using toNumber_of_nullish acc h
  | cons k keys ih =>
    have e : jsCoalesce acc (f k) = f k := by simp [jsCoalesce, h]
    rw [List.foldl_cons, e]
    by_cases hk : nullish (f k) = true
    · rw [ih (f k) hk]
      simp [List.find?, hk]
    · have hk2 : nullish (f k) = false := by simpa using hk
      rw [foldl_coalesce_of_not_nullish f (f k) keys hk2]
      simp [List.find?, hk2]

/-- C10 (as stated) fails: with `totalBenefits: null` and `total: 500` the key
`totalBenefits` is present, yet the explicit total is 500, the value of the
later candidate `total`, and not the coercion of `null`. -/
theorem explicitTotal_skips_null :
    explicitTotal [("totalBenefits", .null), ("total", .num (.fin 500))] = .fin 500
      ∧ explicitTotalFirstKeyPresent [("totalBenefits", .null), ("total", .num (.fin 500))]
          = .nan := by
  decide!

/-- C10 (amended): the explicit total is the coercion of the value stored under
the first candidate name whose value on the record is neither `null` nor
`undefined` (an absent key reads as `undefined`), and `NaN` when there is none;
the falsy values `0`, the empty string and `false` do end the search. -/
theorem explicitTotal_first_non_nullish (record : Props) :
    explicitTotal record = explicitTotalFirstNonNullish record
      ∧ explicitTotal (set (set record "totalBenefits" (.num (.fin 0))) "total" (.num (.fin 500)))
          = .fin 0
      ∧ explicitTotal (set (set record "totalBenefits" (.str "")) "total" (.num (.fin 500)))
          = .nan
      ∧ explicitTotal (set (set record "totalBenefits" (.bool false)) "total" (.num (.fin 500)))
          = .nan := by
  refine ⟨?_, ?_, ?_, ?_⟩
  · unfold explicitTotal explicitTotalFirstNonNullish
    exact foldl_coalesce_find (get record) .undefined candidateFields rfl
  · simp [explicitTotal, candidateFields, List.foldl, jsCoalesce, nullish, get_set_same,
      get_set_other, toNumber]
  · simp [explicitTotal, candidateFields, List.foldl, jsCoalesce, nullish, get_set_same,
      get_set_other, toNumber]
    decide!
  · simp [explicitTotal, candidateFields, List.foldl, jsCoalesce, nullish, get_set_same,
      get_set_other, toNumber]

/-! ## Director detection -/

theorem startsWithChars_iff (cs pat : List Char) :
    startsWithChars cs pat = true ↔ ∃ after, cs = pat ++ after := by
  induction pat generalizing cs with
  | nil => cases cs <;> simp [startsWithChars]
  | cons p ps ih =>
    cases cs with
    | nil => simp [startsWithChars]
    | cons c cs =>
      simp only [startsWithChars, Bool.and_eq_true, beq_iff_eq, ih, List.cons_append,
        List.cons.injEq]
      constructor
      · rintro ⟨h1, after, h2⟩
        exact ⟨after, h1, h2⟩
      · rintro ⟨after, h1, h2⟩
        exact ⟨h1, after, h2⟩

theorem includesChars_iff (cs pat : List Char) :
    includesChars cs pat = true ↔ ∃ before after, cs = before ++ pat ++ after := by
  induction cs with
  | nil =>
    simp only [includesChars, startsWithChars_iff]
    constructor
    · rintro ⟨after, h⟩
      exact ⟨[], after, by simpa using h⟩
    · rintro ⟨before, after, h⟩
      have h2 := h.symm
      simp only [List.append_eq_nil] at h2
      exact ⟨[], by simp [h2.1.2]⟩
  | cons c cs ih =>
    simp only [includesChars, Bool.or_eq_true, startsWithChars_iff, ih]
    constructor
    · rintro (⟨after, h⟩ | ⟨before, after, h⟩)
      · exact ⟨[], after, by simpa using h⟩
      · exact ⟨c :: before, after, by simp [h]⟩
    · rintro ⟨before, after, h⟩
      cases before with
      | nil => exact Or.inl ⟨after, by simpa using h⟩
      | cons b before =>
        simp only [List.cons_append, List.cons.injEq] at h
        exact Or.inr ⟨before, after, by simpa using h.2⟩

theorem includes_iff (s pat : String) : includes s pat = true ↔ ContainsText s pat := by
  unfold includes ContainsText
  exact includesChars_iff s.data pat.data

theorem roleIsDirector_iff (v : JSVal) :
    roleIsDirector v = true ↔ ∃ s, v = .str s ∧ ContainsText (toLowerCase s) "director" := by
  cases v <;> simp [roleIsDirector, includes_iff]

theorem resolveRole_set_role (raw : Props) (s : String) (h : s.data ≠ []) :
    resolveRole (set raw "role" (.str s)) = .str s := by
  unfold resolveRole
  rw [get_set_same]
  apply orChain_of_truthy
  cases hs : s.data with
  | nil => exact absurd hs h
  | cons c cs => simp [truthy, hs]

/-- C5: `normaliseRecord` accepts every object and stores a boolean under
`isDirector`; it is `true` exactly when the resolved role value is a string
whose lower-cased form contains the text "director".  A record whose `role` is
"Senior Director of Engineering" is a director, one whose `role` is "Engineer"
is not, and no role value that is not a string qualifies. -/
theorem isDirector_iff_role_contains_director (raw : Props) :
    normaliseRecord (.obj raw) = some (normaliseProps raw)
      ∧ (∃ b, get (normaliseProps raw) "isDirector" = .bool b)
      ∧ (get (normaliseProps raw) "isDirector" = .bool true ↔
          ∃ s, resolveRole raw = .str s ∧ ContainsText (toLowerCase s) "director")
      ∧ get (normaliseProps (set raw "role" (.str "Senior Director of Engineering")))
          "isDirector" = .bool true
      ∧ get (normaliseProps (set raw "role" (.str "Engineer"))) "isDirector" = .bool false := by
  refine ⟨rfl, ⟨_, get_isDirector raw⟩, ?_, ?_, ?_⟩
  · rw [get_isDirector, ← roleIsDirector_iff]
    simp
  · rw [get_isDirector, resolveRole_set_role _ _ (by decide)]
    decide
  · rw [get_isDirector, resolveRole_set_role _ _ (by decide)]
    decide

/-! ## `extractRecords` -/

theorem truthy_and_isArray (v : JSVal) : (truthy v && isArray v) = isArray v := by
  cases v <;> simp [truthy, isArray]

/-- C7: on every payload `extractRecords` returns an array: the payload itself
when it is an array, otherwise the first of `payload.items`, `payload.data` and
`payload._embedded.benefits` (in that order) that is an array, and the empty
array when none of them is. -/
theorem extractRecords_first_array (payload : JSVal) :
    extractRecords payload = firstArrayFound payload
      ∧ extractRecords .null = []
      ∧ extractRecords (.str "items") = []
      ∧ extractRecords (.obj [("items", .arr []), ("data", .arr [.num (.fin 1)])]) = []
      ∧ extractRecords (.obj [("items", .str "x"), ("data", .null),
          ("_embedded", .obj [("benefits", .arr [.null])])]) = [.null] := by
  refine ⟨?_, by decide, by decide, by decide, by decide⟩
  unfold extractRecords firstArrayFound
  simp only [truthy_and_isArray]
  cases payload with
  | arr xs => simp [isArray, elements]
  | obj o =>
    simp only [isArray, Bool.false_eq_true, if_false]
    cases h1 : getProp (.obj o) "items" <;>
      cases h2 : getProp (.obj o) "data" <;>
        cases h3 : getProp (getProp (.obj o) "_embedded") "benefits" <;>
          simp [isArray, elements]
  | _ => simp [isArray, elements, getProp]

/-! ## `toNumber` -/

theorem parseFloat_digits (ds : List Char) (hd : ∀ c ∈ ds, c.isDigit = true) (hne : ds ≠ []) :
    parseFloat ds = JSNum.roundDouble (digitsValue ds) := by
  have hhead : (ds.head? == some '-') = false := by
    cases ds with
    | nil => rfl
    | cons c cs =>
      have hc := hd c (List.mem_cons_self c cs)
      have : c ≠ '-' := by
        intro e
        rw [e] at hc
        exact absurd hc (by decide)
      simpa using this
  have htake : ds.takeWhile Char.isDigit = ds := by
    rw [List.takeWhile_eq_self_iff]
    exact hd
  have hdrop : ds.dropWhile Char.isDigit = [] := by
    rw [List.dropWhile_eq_nil_iff]
    exact hd
  have hemp : ds.isEmpty = false := by
    cases ds with
    | nil => exact absurd rfl hne
    | cons c cs => rfl
  simp [parseFloat, hhead, htake, hdrop, hemp, digitsValue]

theorem takeWhile_isDigit_of_no_digit (cs : List Char) (h : ∀ c ∈ cs, c.isDigit = false) :
    cs.takeWhile Char.isDigit = [] := by
  cases cs with
  | nil => rfl
  | cons c cs => simp [List.takeWhile, h c (List.mem_cons_self c cs)]

theorem dropWhile_isDigit_of_no_digit (cs : List Char) (h : ∀ c ∈ cs, c.isDigit = false) :
    cs.dropWhile Char.isDigit = cs := by
  cases cs with
  | nil => rfl
  | cons c cs => simp [List.dropWhile, h c (List.mem_cons_self c cs)]

theorem parseFloat_no_digit (cs : List Char) (h : ∀ c ∈ cs, c.isDigit = false) :
    parseFloat cs = .nan := by
  have hbody : ∀ body : List Char, (∀ c ∈ body, c.isDigit = false) →
      (body.takeWhile Char.isDigit).isEmpty = true ∧
      (match body.dropWhile Char.isDigit with
        | '.' :: rest => rest.takeWhile Char.isDigit
        | _ => []).isEmpty = true := by
    intro body hb
    rw [takeWhile_isDigit_of_no_digit body hb, dropWhile_isDigit_of_no_digit body hb]
    refine ⟨rfl, ?_⟩
    split
    · rename_i rest
      rw [takeWhile_isDigit_of_no_digit rest (fun c hc => hb c (List.mem_cons_of_mem _ hc))]
      rfl
    · rfl
  have htail : ∀ c ∈ cs.tail, c.isDigit = false := fun c hc => h c (List.mem_of_mem_tail hc)
  unfold parseFloat
  simp only
  by_cases hneg : (cs.head? == some '-') = true
  · simp only [hneg, if_true]
    obtain ⟨h1, h2⟩ := hbody cs.tail htail
    simp [h1, h2]
  · simp only [hneg, Bool.false_eq_true, if_false]
    obtain ⟨h1, h2⟩ := hbody cs h
    simp [h1, h2]

theorem stripNonNumeric_of_no_dot_dash (s : String)
    (h : ∀ c ∈ s.data, c ≠ '.' ∧ c ≠ '-') :
    stripNonNumeric s = s.data.filter Char.isDigit := by
  unfold stripNonNumeric
  apply List.filter_congr
  intro c hc
  obtain ⟨h1, h2⟩ := h c hc
  have e1 : (c == '.') = false := by simpa using h1
  have e2 : (c == '-') = false := by simpa using h2
  simp [isKept, e1, e2]

theorem digitsValue_eq_ofDigits (ds : List Char) :
    digitsValue ds = Nat.ofDigits 10 (ds.reverse.map (fun c => c.toNat - 48)) := by
  induction ds using List.reverseRecOn with
  | nil => rfl
  | append_singleton ds c ih =>
    have e : digitsValue (ds ++ [c]) = 10 * digitsValue ds + (c.toNat - 48) := by
      simp [digitsValue, List.foldl_append]
    rw [e, ih]
    simp [Nat.ofDigits_cons, Nat.add_comm]

theorem takeWhile_append_stop (p : Char → Bool) (l r : List Char) (x : Char)
    (hl : ∀ c ∈ l, p c = true) (hx : p x = false) :
    (l ++ x :: r).takeWhile p = l := by
  induction l with
  | nil => simp [List.takeWhile, hx]
  | cons c l ih =>
    have hc := hl c (List.mem_cons_self c l)
    simp [List.takeWhile, hc, ih (fun d hd => hl d (List.mem_cons_of_mem c hd))]

theorem dropWhile_append_stop (p : Char → Bool) (l r : List Char) (x : Char)
    (hl : ∀ c ∈ l, p c = true) (hx : p x = false) :
    (l ++ x :: r).dropWhile p = x :: r := by
  induction l with
  | nil => simp [List.dropWhile, hx]
  | cons c l ih =>
    have hc := hl c (List.mem_cons_self c l)
    simp [List.dropWhile, hc, ih (fun d hd => hl d (List.mem_cons_of_mem c hd))]

theorem parseFloat_decimal (neg : Bool) (ip fp : List Char)
    (hip : ∀ c ∈ ip, c.isDigit = true) (hfp : ∀ c ∈ fp, c.isDigit = true) (hne : ip ≠ []) :
    parseFloat ((if neg then ['-'] else []) ++ ip ++ '.' :: fp)
      = JSNum.roundDouble
          (if neg then -((digitsValue ip : ℚ) + (digitsValue fp : ℚ) / 10 ^ fp.length)
            else (digitsValue ip : ℚ) + (digitsValue fp : ℚ) / 10 ^ fp.length) := by
  have hhead : ∀ l : List Char, ((ip ++ l).head? == some '-') = false := by
    intro l
    cases ip with
    | nil => exact absurd rfl hne
    | cons c cs =>
      have hc := hip c (List.mem_cons_self c cs)
      have : c ≠ '-' := by
        intro e
        rw [e] at hc
        exact absurd hc (by decide)
      simpa using this
  have htake : (ip ++ '.' :: fp).takeWhile Char.isDigit = ip :=
    takeWhile_append_stop _ ip fp '.' hip (by decide)
  have hdrop : (ip ++ '.' :: fp).dropWhile Char.isDigit = '.' :: fp :=
    dropWhile_append_stop _ ip fp '.' hip (by decide)
  have hfrac : fp.takeWhile Char.isDigit = fp := by
    rw [List.takeWhile_eq_self_iff]
    exact hfp
  have hemp : ip.isEmpty = false := by
    cases ip with
    | nil => exact absurd rfl hne
    | cons c cs => rfl
  cases neg with
  | true =>
    simp only [if_true, List.singleton_append, List.cons_append, parseFloat, List.head?_cons,
      beq_self_eq_true, List.tail_cons, List.nil_append, htake, hdrop, hfrac, hemp,
      Bool.false_and, Bool.false_eq_true, if_false]
  | false =>
    simp only [Bool.false_eq_true, if_false, List.nil_append, parseFloat, hhead, htake, hdrop,
      hfrac, hemp, Bool.false_and]

theorem stripNonNumeric_of_kept (cs : List Char) (h : ∀ c ∈ cs, isKept c = true) :
    stripNonNumeric (String.mk cs) = cs := by
  unfold stripNonNumeric
  exact List.filter_eq_self.mpr h

/-- C8 (as stated) fails: the digits of "9007199254740993" denote an integer
that is no double, and `toNumber` yields 9007199254740992; a pound sign and a
one followed by 309 zeros yield `Infinity`. -/
theorem toNumber_rounds_long_digit_text :
    toNumber (.str "9007199254740993") = .fin 9007199254740992
      ∧ Nat.ofDigits 10 (("9007199254740993".data.filter Char.isDigit).reverse.map
          (fun c => c.toNat - 48)) = 9007199254740993
      ∧ JSNum.fin 9007199254740992 ≠ JSNum.fin 9007199254740993
      ∧ toNumber (.str (String.mk ('£' :: '1' :: List.replicate 309 '0'))) = .posInf := by
  decide!

/-- C8 (amended): `toNumber` returns a number unchanged; a string is parsed
after every character other than a digit, `.` and `-` is removed, and the parse
(an optional `-`, digits, an optional `.` and digits) is the double nearest to
the decimal read.  Text made of decimal digits and of characters other than `.`
and `-` (currency symbols, comma separators, blanks) yields the double nearest
to the integer its digits denote, which is that integer when it is at most
`2 ^ 53` ("£325,000" yields 325000); text without any digit (such as "n/a")
yields `NaN`; a value of any other type yields `NaN`. -/
theorem toNumber_coercion :
    (∀ n : JSNum, toNumber (.num n) = n)
      ∧ (∀ s : String, toNumber (.str s)
          = parseFloat (s.data.filter (fun c => c.isDigit || c == '.' || c == '-')))
      ∧ (∀ s : String, (∀ c ∈ s.data, c ≠ '.' ∧ c ≠ '-') → (∃ c ∈ s.data, c.isDigit = true) →
          toNumber (.str s) = JSNum.roundDouble ((Nat.ofDigits 10
            ((s.data.filter Char.isDigit).reverse.map (fun c => c.toNat - 48)) : ℕ) : ℚ)
          ∧ (Nat.ofDigits 10
              ((s.data.filter Char.isDigit).reverse.map (fun c => c.toNat - 48)) ≤ 2 ^ 53 →
            toNumber (.str s) = .fin ((Nat.ofDigits 10
              ((s.data.filter Char.isDigit).reverse.map (fun c => c.toNat - 48)) : ℕ) : ℚ)))
      ∧ (∀ (neg : Bool) (ip fp : List Char), (∀ c ∈ ip, c.isDigit = true) →
          (∀ c ∈ fp, c.isDigit = true) → ip ≠ [] →
          toNumber (.str (String.mk ((if neg then ['-'] else []) ++ ip ++ '.' :: fp)))
            = JSNum.roundDouble
                (if neg then -((digitsValue ip : ℚ) + (digitsValue fp : ℚ) / 10 ^ fp.length)
                  else (digitsValue ip : ℚ) + (digitsValue fp : ℚ) / 10 ^ fp.length))
      ∧ toNumber (.str "£325,000") = .fin 325000
      ∧ toNumber (.str "-3.25") = .fin (-13 / 4)
      ∧ toNumber (.str "12.5 kg") = .fin (25 / 2)
      ∧ toNumber (.str "2020-01-15") = .fin 2020
      ∧ toNumber (.str "1.2.3") = JSNum.roundDouble (6 / 5)
      ∧ toNumber (.str "5.") = .fin 5
      ∧ toNumber (.str ".5") = .fin (1 / 2)
      ∧ toNumber (.str "--5") = .nan
      ∧ toNumber (.str "-.") = .nan
      ∧ (∀ s : String, (∀ c ∈ s.data, c.isDigit = false) → toNumber (.str s) = .nan)
      ∧ toNumber (.str "n/a") = .nan
      ∧ (∀ v : JSVal, (∀ n, v ≠ .num n) → (∀ s, v ≠ .str s) → toNumber v = .nan) := by
  refine ⟨fun _ => rfl, fun _ => rfl, ?_, ?_, by decide!, by decide!, by decide!, by decide!,
    by decide!, by decide!, by decide!, by decide!, by decide!, ?_, by decide!, ?_⟩
  · intro s hs hex
    have hparse : toNumber (.str s) = JSNum.roundDouble ((Nat.ofDigits 10
        ((s.data.filter Char.isDigit).reverse.map (fun c => c.toNat - 48)) : ℕ) : ℚ) := by
      show parseFloat (stripNonNumeric s) = _
      rw [stripNonNumeric_of_no_dot_dash s hs, ← digitsValue_eq_ofDigits]
      apply parseFloat_digits
      · intro c hc
        exact (List.mem_filter.mp hc).2
      · obtain ⟨c, hc, hcd⟩ := hex
        exact List.ne_nil_of_mem (List.mem_filter.mpr ⟨hc, hcd⟩)
    refine ⟨hparse, fun hle => ?_⟩
    rw [hparse]
    exact roundDouble_natCast _ hle
  · intro neg ip fp hip hfp hne
    show parseFloat (stripNonNumeric _) = _
    rw [stripNonNumeric_of_kept]
    · exact parseFloat_decimal neg ip fp hip hfp hne
    · intro c hc
      simp only [List.mem_append, List.mem_cons] at hc
      rcases hc with (hc | hc) | hc | hc
      · cases neg
        · simp at hc
        · simp only [if_true, List.mem_singleton] at hc
          rw [hc]
          decide
      · simp [isKept, hip c hc]
      · rw [hc]
        decide
      · simp [isKept, hfp c hc]
  · intro s hs
    show parseFloat (stripNonNumeric s) = _
    apply parseFloat_no_digit
    intro c hc
    exact hs c (List.mem_filter.mp hc).1
  · intro v hn hs
    cases v with
    | num n => exact absurd rfl (hn n)
    | str s => exact absurd rfl (hs s)
    | _ => rfl

/-- Witness for C8 (amended): the text "£325,000" has no `.` and no `-` and has
a digit, and its digits denote 325000, which is below `2 ^ 53`. -/
theorem toNumber_coercion_witness :
    toNumber (.str "£325,000") = .fin ((Nat.ofDigits 10
        (("£325,000".data.filter Char.isDigit).reverse.map (fun c => c.toNat - 48)) : ℕ) : ℚ)
      ∧ Nat.ofDigits 10
        (("£325,000".data.filter Char.isDigit).reverse.map (fun c => c.toNat - 48)) = 325000 :=
  ⟨(toNumber_coercion.2.2.1 "£325,000" (by decide) (by decide)).2 (by decide), by decide⟩

/-! ## Defaults of the derived fields -/

theorem get_foldl_set_undefined (es : List (String × JSVal)) (acc : Props) (k : String)
    (hacc : get acc k = .undefined) (hes : ∀ e ∈ es, e.1 ≠ k) :
    get (es.foldl (fun o e => set o e.1 e.2) acc) k = .undefined := by
  induction es generalizing acc with
  | nil => exact hacc
  | cons e es ih =>
    rw [List.foldl_cons]
    apply ih
    · rw [get_set_other _ _ _ _ (hes e (List.mem_cons_self e es))]
      exact hacc
    · intro e2 he2
      exact hes e2 (List.mem_cons_of_mem e he2)

theorem get_lowerCasedKeys_undefined (raw : Props) (keys : List String) (k : String)
    (hk : k ∈ keys) (h : lacksLoweredKeys raw keys = true) :
    get (lowerCasedKeys raw) k = .undefined := by
  unfold lowerCasedKeys fromEntries
  apply get_foldl_set_undefined _ [] _ (get_nil _)
  intro e he
  obtain ⟨p, hp, rfl⟩ := List.mem_map.mp he
  simp only [lacksLoweredKeys, List.all_eq_true] at h
  have hp2 := h p hp
  intro e2
  simp only at e2
  rw [e2] at hp2
  simp [hk] at hp2

theorem get_of_lacksKeys (raw : Props) (keys : List String) (k : String)
    (hk : k ∈ keys) (h : lacksKeys raw keys = true) : get raw k = .undefined := by
  apply get_of_not_hasKey
  simp only [lacksKeys, List.all_eq_true] at h
  simpa using h k hk

theorem data_ne_nil_of_includes_director (s : String)
    (h : includes (toLowerCase s) "director" = true) : s.data ≠ [] := by
  intro e
  simp [includes, toLowerCase, e] at h
  exact absurd h (by decide)

/-- C9 (as stated) fails: a record that is not a director gets no `taxNumber`,
no `employeeNumber` and no `displayName` at all; in particular a record without
any role is not a director, so the placeholder "Director" is not stored. -/
theorem non_director_gets_no_defaults :
    get (normaliseProps [("role", .str "Engineer")]) "taxNumber" = .undefined
      ∧ get (normaliseProps [("role", .str "Engineer")]) "employeeNumber" = .undefined
      ∧ get (normaliseProps []) "displayName" = .undefined
      ∧ get (normaliseProps []) "isDirector" = .bool false := by
  decide!

theorem get_normaliseProps_non_director (raw : Props) (k : String)
    (hd : roleIsDirector (resolveRole raw) = false)
    (h1 : k ≠ "isDirector") (h2 : k ≠ "totalBenefits") (h3 : k ≠ "salary")
    (h4 : k ≠ "allowances") : get (normaliseProps raw) k = get raw k := by
  unfold normaliseProps
  simp only [hd, Bool.not_false, if_true]
  rw [get_set_other _ _ _ _ (Ne.symm h4), get_set_other _ _ _ _ (Ne.symm h3),
    get_set_other _ _ _ _ (Ne.symm h2), get_set_other _ _ _ _ (Ne.symm h1)]

/-- C9 (amended): for every raw object record that is classified as a director,
`taxNumber` is "–" when no tax-identifier alias is a key of the record,
`employeeNumber` is "–" when no employee-identifier alias is, and `displayName`
is the resolved role (a string that is not empty) when no name alias is a key of
the record, in either casing.  For a record that is not classified as a
director none of the three fields is set: each reads as it does on the raw
record, `undefined` when the raw record has no such key. -/
theorem director_defaults (raw : Props) :
    (get (normaliseProps raw) "isDirector" = .bool true →
      (lacksKeys raw ["taxNumber", "taxReference", "nino", "niNumber", "taxId"] = true →
          get (normaliseProps raw) "taxNumber" = .str "–")
        ∧ (lacksKeys raw ["employeeNumber", "payrollNumber", "reference", "employeeId"] = true →
          get (normaliseProps raw) "employeeNumber" = .str "–")
        ∧ (lacksKeys raw ["name", "fullName", "directorName", "employeeName"] = true →
          lacksLoweredKeys raw ["name", "employee name"] = true →
          get (normaliseProps raw) "displayName" = resolveRole raw
            ∧ ∃ s, resolveRole raw = .str s ∧ s.data ≠ []))
      ∧ (get (normaliseProps raw) "isDirector" = .bool false →
        get (normaliseProps raw) "taxNumber" = get raw "taxNumber"
          ∧ get (normaliseProps raw) "employeeNumber" = get raw "employeeNumber"
          ∧ get (normaliseProps raw) "displayName" = get raw "displayName"
          ∧ (hasKey raw "taxNumber" = false → get (normaliseProps raw) "taxNumber" = .undefined)
          ∧ (hasKey raw "employeeNumber" = false →
              get (normaliseProps raw) "employeeNumber" = .undefined)
          ∧ (hasKey raw "displayName" = false →
              get (normaliseProps raw) "displayName" = .undefined)) := by
  constructor
  · intro hdir
    rw [get_isDirector] at hdir
    have hd : roleIsDirector (resolveRole raw) = true := by simpa using hdir
    refine ⟨?_, ?_, ?_⟩
    · intro h
      unfold normaliseProps
      simp only [hd, Bool.not_true, Bool.false_eq_true, if_false]
      rw [get_set_other _ _ _ _ (by decide), get_set_other _ _ _ _ (by decide),
        get_set_other _ _ _ _ (by decide), get_set_other _ _ _ _ (by decide),
        get_set_other _ _ _ _ (by decide), get_set_same]
      rw [get_of_lacksKeys raw _ "taxNumber" (by decide) h,
        get_of_lacksKeys raw _ "taxReference" (by decide) h,
        get_of_lacksKeys raw _ "nino" (by decide) h,
        get_of_lacksKeys raw _ "niNumber" (by decide) h,
        get_of_lacksKeys raw _ "taxId" (by decide) h]
      decide
    · intro h
      unfold normaliseProps
      simp only [hd, Bool.not_true, Bool.false_eq_true, if_false]
      rw [get_set_other _ _ _ _ (by decide), get_set_other _ _ _ _ (by decide),
        get_set_other _ _ _ _ (by decide), get_set_other _ _ _ _ (by decide), get_set_same]
      rw [get_of_lacksKeys raw _ "employeeNumber" (by decide) h,
        get_of_lacksKeys raw _ "payrollNumber" (by decide) h,
        get_of_lacksKeys raw _ "reference" (by decide) h,
        get_of_lacksKeys raw _ "employeeId" (by decide) h]
      decide
    · intro h hl
      obtain ⟨s, hs, hcont⟩ := (roleIsDirector_iff _).mp hd
      have hne : s.data ≠ [] :=
        data_ne_nil_of_includes_director s ((includes_iff _ _).mpr hcont)
      refine ⟨?_, s, hs, hne⟩
      have hname : resolveName raw = .null := by
        unfold resolveName
        rw [get_of_lacksKeys raw _ "name" (by decide) h,
          get_of_lacksKeys raw _ "fullName" (by decide) h,
          get_of_lacksKeys raw _ "directorName" (by decide) h,
          get_of_lacksKeys raw _ "employeeName" (by decide) h,
          get_lowerCasedKeys_undefined raw _ "name" (by decide) hl,
          get_lowerCasedKeys_undefined raw _ "employee name" (by decide) hl]
        decide
      unfold normaliseProps
      simp only [hd, Bool.not_true, Bool.false_eq_true, if_false]
      rw [get_set_other _ _ _ _ (by decide), get_set_other _ _ _ _ (by decide),
        get_set_other _ _ _ _ (by decide), get_set_other _ _ _ _ (by decide),
        get_set_other _ _ _ _ (by decide), get_set_other _ _ _ _ (by decide), get_set_same]
      rw [hname, hs]
      simp [orChain, List.foldl, jsOr, truthy, hne]
  · intro hdir
    rw [get_isDirector] at hdir
    have hd : roleIsDirector (resolveRole raw) = false := by simpa using hdir
    have e1 := get_normaliseProps_non_director raw "taxNumber" hd
      (by decide) (by decide) (by decide) (by decide)
    have e2 := get_normaliseProps_non_director raw "employeeNumber" hd
      (by decide) (by decide) (by decide) (by decide)
    have e3 := get_normaliseProps_non_director raw "displayName" hd
      (by decide) (by decide) (by decide) (by decide)
    refine ⟨e1, e2, e3, fun h => ?_, fun h => ?_, fun h => ?_⟩
    · rw [e1]; exact get_of_not_hasKey raw _ h
    · rw [e2]; exact get_of_not_hasKey raw _ h
    · rw [e3]; exact get_of_not_hasKey raw _ h

/-- Witness for C9 (amended): a director that only has a role, and a record
that is not a director and has a `taxNumber` of its own. -/
theorem director_defaults_witness :
    get (normaliseProps [("role", .str "Managing Director")]) "taxNumber" = .str "–"
      ∧ get (normaliseProps [("role", .str "Managing Director")]) "employeeNumber" = .str "–"
      ∧ get (normaliseProps [("role", .str "Managing Director")]) "displayName"
          = .str "Managing Director"
      ∧ get (normaliseProps [("role", .str "Engineer"), ("taxNumber", .str "X")]) "taxNumber"
          = .str "X"
      ∧ get (normaliseProps [("role", .str "Engineer"), ("taxNumber", .str "X")])
          "employeeNumber" = .undefined :=
  have h := (director_defaults [("role", .str "Managing Director")]).1 (by decide!)
  have g := (director_defaults [("role", .str "Engineer"), ("taxNumber", .str "X")]).2
    (by decide!)
  ⟨h.1 (by decide), h.2.1 (by decide), (h.2.2 (by decide) (by decide)).1,
    g.1.trans (by decide!), g.2.2.2.2.1 (by decide)⟩

/-! ## The fallback dataset -/

/-- C2 (as stated) fails: the fallback entries go through `normaliseRecord`, so
the installed records are not the hardcoded ones: each has its `displayName`
replaced by its role, and each has the field `isDirector` added. -/
theorem fallback_not_verbatim :
    (hydrate getFallbackData).map JSVal.obj ≠ getFallbackData
      ∧ (hydrate getFallbackData).map (fun r => get r "displayName")
          = [.str "Executive Director", .str "Finance Director", .str "Operations Director",
             .str "Managing Director", .str "Commercial Director"]
      ∧ getFallbackData.map (fun v => get (propsOf v) "displayName")
          = [.str "Amelia Clarke", .str "Oliver Patel", .str "Sophia Ahmed",
             .str "Ethan Walker", .str "Charlotte Green"] := by
  decide!

/-- C2 (amended): the dataset installed by the fallback path has the five
fallback records in their hardcoded order; apart from `displayName`, every
hardcoded field of every record keeps its hardcoded value, and the only field
added is `isDirector`, which is `true`. -/
theorem fallback_fields_kept :
    (hydrate getFallbackData).length = 5
      ∧ (hydrate getFallbackData).map (fun r => without (without r "displayName") "isDirector")
          = getFallbackData.map (fun v => without (propsOf v) "displayName")
      ∧ (hydrate getFallbackData).map (fun r => get r "isDirector")
          = [.bool true, .bool true, .bool true, .bool true, .bool true]
      ∧ (hydrate getFallbackData).map (fun r => hasKey r "displayName")
          = [true, true, true, true, true] := by
  decide!

/-! ## `hydrate` -/

theorem sortInsert_perm {α : Type} (cmp : α → α → JSNum) (x : α) (l : List α) :
    (sortInsert cmp x l).Perm (x :: l) := by
  induction l with
  | nil => exact List.Perm.refl _
  | cons y ys ih =>
    unfold sortInsert
    split
    · exact ((List.Perm.cons y ih).trans (List.Perm.swap x y ys))
    · exact List.Perm.refl _

theorem sortBy_perm {α : Type} (cmp : α → α → JSNum) (l : List α) : (sortBy cmp l).Perm l := by
  induction l with
  | nil => exact List.Perm.refl _
  | cons x xs ih =>
    unfold sortBy
    exact (sortInsert_perm cmp x _).trans (List.Perm.cons x ih)

theorem JSNum.sub_gt_zero (a b : JSNum) : (JSNum.sub b a).gt (.fin 0) = JSNum.lt a b := by
  cases a <;> cases b <;> simp [JSNum.sub, JSNum.gt, JSNum.lt]

theorem JSNum.ge_of_lt (a b : JSNum) (h : JSNum.lt a b = true) : JSNum.ge b a = true := by
  cases a <;> cases b <;> simp [JSNum.ge, JSNum.le, JSNum.lt] at h ⊢
  exact le_of_lt h

theorem JSNum.ge_of_not_lt (a b : JSNum) (ha : a ≠ .nan) (hb : b ≠ .nan)
    (h : JSNum.lt a b = false) : JSNum.ge a b = true := by
  cases a <;> cases b <;> simp [JSNum.ge, JSNum.le, JSNum.lt] at h ha hb ⊢
  exact h

theorem JSNum.ge_trans (a b c : JSNum) (h1 : JSNum.ge a b = true) (h2 : JSNum.ge b c = true) :
    JSNum.ge a c = true := by
  cases a <;> cases b <;> cases c <;> simp [JSNum.ge, JSNum.le] at h1 h2 ⊢
  exact le_trans h2 h1

theorem sortInsert_pairwise (x : Props) (l : List Props)
    (hx : totalBenefitsOf x ≠ .nan) (hl : ∀ r ∈ l, totalBenefitsOf r ≠ .nan)
    (hs : l.Pairwise (fun a b => (totalBenefitsOf a).ge (totalBenefitsOf b) = true)) :
    (sortInsert byTotalDesc x l).Pairwise
      (fun a b => (totalBenefitsOf a).ge (totalBenefitsOf b) = true) := by
  induction l with
  | nil => simp [sortInsert]
  | cons y ys ih =>
    have hy : totalBenefitsOf y ≠ .nan := hl y (List.mem_cons_self y ys)
    have hys : ∀ r ∈ ys, totalBenefitsOf r ≠ .nan := fun r hr => hl r (List.mem_cons_of_mem y hr)
    obtain ⟨hyall, hyss⟩ := List.pairwise_cons.mp hs
    unfold sortInsert
    by_cases hc : (byTotalDesc x y).gt (.fin 0) = true
    · rw [if_pos hc]
      have hlt : JSNum.lt (totalBenefitsOf x) (totalBenefitsOf y) = true := by
        rw [← JSNum.sub_gt_zero]
        exact hc
      refine List.pairwise_cons.mpr ⟨?_, ih hys hyss⟩
      intro z hz
      rcases List.mem_cons.mp ((sortInsert_perm byTotalDesc x ys).mem_iff.mp hz) with e | hz2
      · rw [e]
        exact JSNum.ge_of_lt _ _ hlt
      · exact hyall z hz2
    · rw [if_neg hc]
      have hnlt : JSNum.lt (totalBenefitsOf x) (totalBenefitsOf y) = false := by
        rw [← JSNum.sub_gt_zero]
        simpa [byTotalDesc] using hc
      have hxy : (totalBenefitsOf x).ge (totalBenefitsOf y) = true :=
        JSNum.ge_of_not_lt _ _ hx hy hnlt
      refine List.pairwise_cons.mpr ⟨?_, hs⟩
      intro z hz
      rcases List.mem_cons.mp hz with e | hz2
      · rw [e]
        exact hxy
      · exact JSNum.ge_trans _ _ _ hxy (hyall z hz2)

theorem sortBy_pairwise (l : List Props) (hl : ∀ r ∈ l, totalBenefitsOf r ≠ .nan) :
    (sortBy byTotalDesc l).Pairwise
      (fun a b => (totalBenefitsOf a).ge (totalBenefitsOf b) = true) := by
  induction l with
  | nil => simp [sortBy]
  | cons x xs ih =>
    unfold sortBy
    have hxs : ∀ r ∈ xs, totalBenefitsOf r ≠ .nan := fun r hr => hl r (List.mem_cons_of_mem x hr)
    apply sortInsert_pairwise x _ (hl x (List.mem_cons_self x xs))
    · intro r hr
      exact hxs r ((sortBy_perm byTotalDesc xs).mem_iff.mp hr)
    · exact ih hxs

theorem keepDirector_normaliseRecord (v : JSVal) :
    keepDirector (normaliseRecord v)
      = (normaliseRecord v).filter (fun r => JSVal.beq (get r "isDirector") (.bool true)) := by
  unfold normaliseRecord
  cases ownProps v with
  | none => rfl
  | some o =>
    simp only [keepDirector, get_isDirector, truthy, Option.filter, JSVal.beq]
    by_cases h : roleIsDirector (resolveRole o) = true <;> simp [h]

theorem filterMap_keepDirector (dataset : List JSVal) :
    (dataset.map normaliseRecord).filterMap keepDirector = directorsOf dataset := by
  unfold directorsOf
  induction dataset with
  | nil => rfl
  | cons v vs ih =>
    rw [List.map_cons, List.filterMap_cons, keepDirector_normaliseRecord, ih]
    cases h : normaliseRecord v with
    | none => simp [List.filterMap_cons, h, Option.filter]
    | some r =>
      by_cases hd : JSVal.beq (get r "isDirector") (.bool true) = true <;>
        simp [List.filterMap_cons, h, Option.filter, hd, List.filter_cons]

theorem mem_directorsOf (dataset : List JSVal) (r : Props) :
    r ∈ directorsOf dataset ↔
      ∃ v ∈ dataset, normaliseRecord v = some r ∧ get r "isDirector" = .bool true := by
  have hb : JSVal.beq (get r "isDirector") (.bool true) = true ↔
      get r "isDirector" = .bool true :=
    ⟨JSVal.beq_eq _ _, fun e => e ▸ JSVal.beq_self _⟩
  simp only [directorsOf, List.mem_filter, List.mem_filterMap, hb]
  constructor
  · rintro ⟨⟨v, hv, hn⟩, hd⟩
    exact ⟨v, hv, hn, hd⟩
  · rintro ⟨v, hv, hn, hd⟩
    exact ⟨⟨v, hv, hn⟩, hd⟩

/-- C6 (as stated) fails: a director record whose `salary` is `Infinity` and
whose `allowances` is `-Infinity` (the JSON literals `1e999` and `-1e999`) has
`NaN` as `totalBenefits`; the comparator cannot place it, and the dataset keeps
a record with total 5 in front of a record with total 7. -/
theorem hydrate_not_sorted_with_nan :
    (hydrate
        [.obj [("role", .str "Director"), ("totalBenefits", .num (.fin 5))],
         .obj [("role", .str "Director"), ("salary", .num .posInf),
               ("allowances", .num .negInf)],
         .obj [("role", .str "Director"), ("totalBenefits", .num (.fin 7))]]).map
        (fun r => get r "totalBenefits")
      = [.num (.fin 5), .num .nan, .num (.fin 7)]
      ∧ JSNum.ge (.fin 5) (.fin 7) = false
      ∧ JSNum.ge (.fin 5) .nan = false := by
  decide!

/-- C6 (amended): for every input array, the dataset built by `hydrate` is a
rearrangement of the normalised records whose `isDirector` is `true` (no `null`,
no other record, none lost); when no record of it has `NaN` as `totalBenefits`,
`totalBenefits` is non-increasing from the first record to the last. -/
theorem hydrate_directors_sorted (dataset : List JSVal) :
    (hydrate dataset).Perm (directorsOf dataset)
      ∧ (∀ r, r ∈ hydrate dataset ↔
          ∃ v ∈ dataset, normaliseRecord v = some r ∧ get r "isDirector" = .bool true)
      ∧ ((∀ r ∈ hydrate dataset, totalBenefitsOf r ≠ .nan) →
          (hydrate dataset).Pairwise
            (fun a b => (totalBenefitsOf a).ge (totalBenefitsOf b) = true)) := by
  have hperm : (hydrate dataset).Perm (directorsOf dataset) := by
    unfold hydrate
    rw [← filterMap_keepDirector]
    exact sortBy_perm _ _
  refine ⟨hperm, ?_, ?_⟩
  · intro r
    rw [hperm.mem_iff, mem_directorsOf]
  · unfold hydrate
    intro h
    apply sortBy_pairwise
    intro r hr
    exact h r ((sortBy_perm byTotalDesc _).mem_iff.mpr hr)

/-- Witness for C6 (amended): three directors out of order, a record that is not
a director, and two values that are not records. -/
theorem hydrate_directors_sorted_witness :
    (hydrate
      [.obj [("role", .str "Finance Director"), ("totalBenefits", .num (.fin 5))], .null,
       .obj [("role", .str "Engineer"), ("totalBenefits", .num (.fin 9))],
       .obj [("role", .str "Managing Director"), ("cash", .str "7,000")], .str "x",
       .obj [("role", .str "Director"), ("totalBenefits", .num (.fin 6))]]).Pairwise
      (fun a b => (totalBenefitsOf a).ge (totalBenefitsOf b) = true) :=
  (hydrate_directors_sorted _).2.2 (by decide!)

/-! ## The fallback sum after the maximum scan -/

/-- C4 (as stated) fails: with `totalBenefits: 0`, `salary: 100` and
`allowances: 20` the result is 100, the largest number found in the record, and
not the sum 120. -/
theorem totalBenefits_zero_takes_maximum :
    get (normaliseProps [("totalBenefits", .num (.fin 0)), ("salary", .num (.fin 100)),
        ("allowances", .num (.fin 20))]) "totalBenefits" = .num (.fin 100)
      ∧ JSNum.fin 100 ≠ JSNum.fin (100 + 20) := by
  decide!

/-- C4 (amended): for every raw object record with `totalBenefits` equal to 0
and with finite nonzero numeric `salary` and `allowances` fields, the
`totalBenefits` of the normalised record is the largest of the finite numbers
the values of the record coerce to when one of them is greater than zero, and
the JavaScript sum `salary + allowances` (the double nearest to the exact sum)
when none is. -/
theorem totalBenefits_zero_explicit (raw : Props) (s a : ℚ) (hs : s ≠ 0) (ha : a ≠ 0)
    (ht : get raw "totalBenefits" = .num (.fin 0))
    (hsal : get raw "salary" = .num (.fin s))
    (hall : get raw "allowances" = .num (.fin a)) :
    get (normaliseProps raw) "totalBenefits"
        = .num (if (numericValues raw).any (fun x => x.gt (.fin 0))
            then JSNum.mathMax (numericValues raw) else JSNum.add (.fin s) (.fin a))
      ∧ JSNum.mathMax (numericValues raw) ∈ numericValues raw
      ∧ ∀ x ∈ numericValues raw, x.le (JSNum.mathMax (numericValues raw)) = true := by
  have h0 : JSNum.fin 0 ∈ numericValues raw := fin_mem_numericValues raw _ 0 ht
  have hsm : JSNum.fin s ∈ numericValues raw := fin_mem_numericValues raw _ s hsal
  have ham : JSNum.fin a ∈ numericValues raw := fin_mem_numericValues raw _ a hall
  have hne : numericValues raw ≠ [] := List.ne_nil_of_mem h0
  obtain ⟨m, hm, hmem, hub⟩ := mathMax_fin _ hne (numericValues_fin raw)
  have hL : ∀ x ∈ JSNum.fin s :: JSNum.fin a :: numericValues raw, ∃ q, x = .fin q := by
    intro x hx
    rcases List.mem_cons.mp hx with h | h
    · exact ⟨s, h⟩
    · rcases List.mem_cons.mp h with h | h
      · exact ⟨a, h⟩
      · exact numericValues_fin raw x h
  obtain ⟨m2, hm2, hmem2, hub2⟩ := mathMax_fin _ (List.cons_ne_nil _ _) hL
  have hmm : m2 = m := by
    apply le_antisymm
    · rcases List.mem_cons.mp hmem2 with h | h
      · cases h; exact hub _ hsm
      · rcases List.mem_cons.mp h with h | h
        · cases h; exact hub _ ham
        · exact hub m2 h
    · exact hub2 m (List.mem_cons_of_mem _ (List.mem_cons_of_mem _ hmem))
  have hsalary : resolveSalary raw = .fin s := by
    unfold resolveSalary
    rw [hsal, orChain_of_truthy _ _ (by simp [truthy, hs])]
    rfl
  have hallow : resolveAllowances raw = .fin a := by
    unfold resolveAllowances
    rw [hall, orChain_of_truthy _ _ (by simp [truthy, ha])]
    rfl
  have he : explicitTotal raw = .fin 0 := by
    simp [explicitTotal, candidateFields, List.foldl, jsCoalesce, nullish, ht, toNumber]
  have hany : (numericValues raw).any (fun x => x.gt (.fin 0)) = decide (0 < m) := by
    rw [Bool.eq_iff_iff]
    simp only [List.any_eq_true, decide_eq_true_eq]
    constructor
    · rintro ⟨x, hx, hgt⟩
      obtain ⟨q, rfl⟩ := numericValues_fin raw x hx
      have hq : 0 < q := by simpa [JSNum.gt, JSNum.lt] using hgt
      exact lt_of_lt_of_le hq (hub q hx)
    · intro h
      exact ⟨.fin m, hmem, by simpa [JSNum.gt, JSNum.lt] using h⟩
  have hemp : (numericValues raw).isEmpty = false := by
    cases hnv : numericValues raw with
    | nil => exact absurd hnv hne
    | cons x xs => rfl
  refine ⟨?_, ?_, ?_⟩
  · rw [get_totalBenefits, hsalary, hallow, hany, hm]
    unfold calculateTotalBenefits
    have hos : JSNum.orZero (.fin s) = .fin s := by simp [JSNum.orZero, hs]
    have hoa : JSNum.orZero (.fin a) = .fin a := by simp [JSNum.orZero, ha]
    simp only [he, hos, hoa, hemp, hm2, hmm]
    by_cases hpos : 0 < m
    · simp [JSNum.isFinite, JSNum.gt, JSNum.lt, JSNum.le, hpos]
    · simp [JSNum.isFinite, JSNum.gt, JSNum.lt, JSNum.le, hpos, not_lt.mp hpos]
  · rw [hm]
    exact hmem
  · intro x hx
    obtain ⟨q, rfl⟩ := numericValues_fin raw x hx
    rw [hm]
    simpa [JSNum.le] using hub q hx

/-- Witness for C4 (amended): no value of the record is positive, so the result
is the sum of `salary` and `allowances`; in the second record the exact sum is
no double and the result is the double nearest to it. -/
theorem totalBenefits_zero_explicit_witness :
    get (normaliseProps [("totalBenefits", .num (.fin 0)), ("salary", .num (.fin (-100))),
        ("allowances", .num (.fin (-20)))]) "totalBenefits" = .num (.fin (-120))
      ∧ get (normaliseProps [("totalBenefits", .num (.fin 0)),
          ("salary", .num (.fin (-9007199254740992))), ("allowances", .num (.fin (-1)))])
          "totalBenefits" = .num (.fin (-9007199254740992)) :=
  ⟨(totalBenefits_zero_explicit _ (-100) (-20) (by norm_num) (by norm_num)
      (by decide!) (by decide!) (by decide!)).1.trans (by decide!),
   (totalBenefits_zero_explicit _ (-9007199254740992) (-1) (by norm_num) (by norm_num)
      (by decide!) (by decide!) (by decide!)).1.trans (by decide!)⟩

end UKDirectors
